import Mathlib

/-!
Shallow embedding of the `AlphaBetaPruning` engine of `strategies.py`
(lichess-bot homemade strategies module).

The Python code mutates a `chess.Board` in place through `push`/`pop`; since
every `push` is undone by a matching `pop` before the value is used again, the
net effect of `board.push(m); recurse(board); board.pop()` is a recursive call
on the successor position, and the search is embedded functionally: the board
interface (`python-chess`) is an abstract `GameModel` record and `push` returns
the successor position.  A separate, state-threading instrumentation
(`alphabeta_search_st` below) models the push/pop calls themselves for the
stack-discipline claims.

Scores: the Python code mixes integer evaluations with `-math.inf` / `math.inf`
sentinels, so `Score` is the integers with two added endpoints,
`WithBot (WithTop ℤ)`; `⊥` plays `-math.inf`, `⊤` plays `math.inf`.
-/

namespace Strategies

/-- Scores: integers extended with `-inf` (`⊥`) and `+inf` (`⊤`),
modelling Python's ints together with `-math.inf` / `math.inf`. -/
abbrev Score : Type := WithBot (WithTop ℤ)

/-- Embeds an integer evaluation into `Score`. -/
def Score.I (n : ℤ) : Score := ((n : WithTop ℤ) : Score)

/-- The "move" slot of the pairs returned by the search: Python's `None`
(returned at terminal nodes), the never-reassigned sentinel `''` used to
initialise `best_move`, or an actual move. -/
inductive MoveResult (Move : Type) where
  | noneval : MoveResult Move
  | sentinel : MoveResult Move
  | move (m : Move) : MoveResult Move
deriving DecidableEq

/-- The interface the engine consumes from the external `python-chess` board
(spec §6): legal-move enumeration, capture flags, terminal detection, the
outcome result string (`none` while the game is ongoing), the FEN piece
placement, the side to move, and move application.  `push` returns the
successor position (see the module docstring). -/
structure GameModel (Pos Move : Type) where
  legal_moves : Pos → List Move
  is_capture : Pos → Move → Bool
  is_game_over : Pos → Bool
  outcome_result : Pos → Option String
  board_fen : Pos → String
  turn_white : Pos → Bool
  push : Pos → Move → Pos

variable {Pos Move : Type}

/-- The `AlphaBetaPruning.piece_values` dict of `strategies.py`, lines 108-119:
a finite map from FEN piece characters to signed material values. -/
def piece_values : List (Char × Int) :=
  [('p', -1), ('P', 1), ('r', -5), ('R', 5), ('n', -3), ('N', 3),
   ('b', -3), ('B', 3), ('q', -9), ('Q', 9)]

/-- One character's contribution in `evaluate_position`, line 132:
`self.piece_values[char] if char in self.piece_values else 0`. -/
def char_value (c : Char) : Int := (piece_values.lookup c).getD 0

/-- `AlphaBetaPruning.evaluate_position`, lines 125-147: if the outcome is
`None` (ongoing), fold the piece-value table over the FEN placement string;
otherwise dispatch on the result string: `"1-0"` ↦ 300, `"0-1"` ↦ -300,
anything else (a draw) ↦ 0. -/
def evaluate_position (G : GameModel Pos Move) (p : Pos) : Int :=
  match G.outcome_result p with
  | none => (G.board_fen p).toList.foldl (fun acc c => acc + char_value c) 0
  | some result =>
      if result = "1-0" then 300
      else if result = "0-1" then -300
      else 0

/-- `AlphaBetaPruning.move_ordering_sort`, lines 291-313.  The Python loop
appends each legal move to `captures` when `board.is_capture(move)` holds and
to `temp_list` otherwise, preserving enumeration order in each list — i.e. the
two lists are the capture filter and its complement of `board.legal_moves`. -/
def move_ordering_sort (G : GameModel Pos Move) (p : Pos)
    (only_captures : Bool) : List Move :=
  let moves_list := G.legal_moves p
  let captures := moves_list.filter (fun move => G.is_capture p move)
  let temp_list := moves_list.filter (fun move => ! G.is_capture p move)
  if only_captures then captures else captures ++ temp_list

/-- The maximizing `for move in moves_list` loop shared by lines 169-188 and
244-263: carries the running `alpha`, `best_eval`, `best_move`; each iteration
recurses on the pushed position (`recurse` closes over the remaining depth),
updates `best_eval`/`best_move` on strict improvement, raises `alpha`, and
breaks out of the loop when `alpha >= beta`.  (The Python `break` then falls
through to `return (best_move, best_eval)`.)  The pruning-counter update on
the break path is dead Python code — the counter name is never bound, see
`module_bindings` below — and has no bearing on the returned value. -/
def ab_max_loop (pushto : Move → Pos)
    (recurse : Pos → Score → Score → Score) :
    List Move → Score → Score → Score → MoveResult Move →
      MoveResult Move × Score
  | [], _alpha, _beta, best_eval, best_move => (best_move, best_eval)
  | move :: rest, alpha, beta, best_eval, best_move =>
      let current_eval := recurse (pushto move) alpha beta
      let best_eval' := if best_eval < current_eval then current_eval else best_eval
      let best_move' := if best_eval < current_eval then MoveResult.move move else best_move
      let alpha' := max alpha current_eval
      if beta ≤ alpha' then (best_move', best_eval')
      else ab_max_loop pushto recurse rest alpha' beta best_eval' best_move'

/-- The minimizing loop shared by lines 191-206 and 266-283: mirror image of
`ab_max_loop`, lowering `beta` and keeping the strictly smallest evaluation. -/
def ab_min_loop (pushto : Move → Pos)
    (recurse : Pos → Score → Score → Score) :
    List Move → Score → Score → Score → MoveResult Move →
      MoveResult Move × Score
  | [], _alpha, _beta, best_eval, best_move => (best_move, best_eval)
  | move :: rest, alpha, beta, best_eval, best_move =>
      let current_eval := recurse (pushto move) alpha beta
      let best_eval' := if current_eval < best_eval then current_eval else best_eval
      let best_move' := if current_eval < best_eval then MoveResult.move move else best_move
      let beta' := min beta current_eval
      if beta' ≤ alpha then (best_move', best_eval')
      else ab_min_loop pushto recurse rest alpha beta' best_eval' best_move'

/-- `AlphaBetaPruning.quiescence_search`, lines 213-286.  Terminal condition
(line 232): `board.is_game_over() or moves_list == [] or depth == 0` returns
`(None, evaluate_position(board))`; the recursion is split on `depth` so that
the `depth == 0` disjunct is the first match arm and the other two disjuncts
guard the successor arm.  Otherwise: alpha-beta over the capture-only list,
`best_eval` starting at `-inf` (`⊥`) / `inf` (`⊤`), `best_move` at `''`. -/
def quiescence_search (G : GameModel Pos Move) :
    Pos → Bool → Score → Score → Nat → MoveResult Move × Score
  | p, _white_to_move, _alpha, _beta, 0 =>
      (MoveResult.noneval, Score.I (evaluate_position G p))
  | p, white_to_move, alpha, beta, depth + 1 =>
      let moves_list := move_ordering_sort G p true
      if G.is_game_over p || moves_list.isEmpty then
        (MoveResult.noneval, Score.I (evaluate_position G p))
      else
        if white_to_move then
          ab_max_loop (G.push p)
            (fun q a b => (quiescence_search G q false a b depth).2)
            moves_list alpha beta ⊥ MoveResult.sentinel
        else
          ab_min_loop (G.push p)
            (fun q a b => (quiescence_search G q true a b depth).2)
            moves_list alpha beta ⊤ MoveResult.sentinel

/-- `AlphaBetaPruning.alphabeta_search`, lines 152-209.  Terminal condition
(line 156): `depth == 0 or board.is_game_over()` returns
`(None, quiescence_search(board, white_to_move, alpha, beta, 3)[1])`; the
recursion is split on `depth` so the `depth == 0` disjunct is the first match
arm.  Otherwise the move list is `move_ordering_sort(board, False)` permuted
by `random.shuffle` — modelled by the ambient permutation-producing function
`shuffle` — and the matching loop runs with `best_eval = ∓inf`,
`best_move = ''`. -/
def alphabeta_search (G : GameModel Pos Move)
    (shuffle : List Move → List Move) :
    Pos → Nat → Bool → Score → Score → MoveResult Move × Score
  | p, 0, white_to_move, alpha, beta =>
      (MoveResult.noneval, (quiescence_search G p white_to_move alpha beta 3).2)
  | p, depth + 1, white_to_move, alpha, beta =>
      if G.is_game_over p then
        (MoveResult.noneval, (quiescence_search G p white_to_move alpha beta 3).2)
      else
        let moves_list := shuffle (move_ordering_sort G p false)
        if white_to_move then
          ab_max_loop (G.push p)
            (fun q a b => (alphabeta_search G shuffle q depth false a b).2)
            moves_list alpha beta ⊥ MoveResult.sentinel
        else
          ab_min_loop (G.push p)
            (fun q a b => (alphabeta_search G shuffle q depth true a b).2)
            moves_list alpha beta ⊤ MoveResult.sentinel

/-- Modelled from the spec: the signed per-symbol value table of §4.1
("pawn=±1, knight/bishop=±3, rook=±5, queen=±9; side-A pieces positive,
side-B negative; king excluded"), with non-piece characters of the placement
encoding contributing nothing. -/
def spec_material_value (c : Char) : Int :=
  if c = 'P' then 1 else if c = 'p' then -1
  else if c = 'N' then 3 else if c = 'n' then -3
  else if c = 'B' then 3 else if c = 'b' then -3
  else if c = 'R' then 5 else if c = 'r' then -5
  else if c = 'Q' then 9 else if c = 'q' then -9
  else 0

/-- Modelled from the spec: the Evaluator of §4.1 — material sum while the
game is ongoing, ±300 for a decided game, 0 for a draw. -/
def spec_evaluate (G : GameModel Pos Move) (p : Pos) : Int :=
  match G.outcome_result p with
  | none => ((G.board_fen p).toList.map spec_material_value).sum
  | some result =>
      if result = "1-0" then 300
      else if result = "0-1" then -300
      else 0

/-- Maximum of a list of scores, starting from `-inf`. -/
def fold_max (l : List Score) : Score := l.foldl max ⊥

/-- Minimum of a list of scores, starting from `+inf`. -/
def fold_min (l : List Score) : Score := l.foldl min ⊤

/-- Modelled from the spec: the full-width (non-pruned) quiescence minimax
value of §4.3/§8 — recurse only into capture moves, stop and evaluate when
the position is terminal, the capture list is empty, or the extension depth
is exhausted, and back values up by max/min with no window. -/
def qminimax (G : GameModel Pos Move) : Pos → Bool → Nat → Score
  | p, _white_to_move, 0 => Score.I (evaluate_position G p)
  | p, white_to_move, depth + 1 =>
      let captures := (G.legal_moves p).filter (fun move => G.is_capture p move)
      if G.is_game_over p || captures.isEmpty then
        Score.I (evaluate_position G p)
      else if white_to_move then
        fold_max (captures.map (fun move => qminimax G (G.push p move) false depth))
      else
        fold_min (captures.map (fun move => qminimax G (G.push p move) true depth))

/-- Modelled from the spec: the full-width (non-pruned) minimax of §8
("the score a full-width minimax of identical depth and evaluator would
produce"), with the same fixed quiescence extension depth 3 at its leaves,
ranging over the position's legal moves with no window and no shuffle. -/
def minimax (G : GameModel Pos Move) : Pos → Nat → Bool → Score
  | p, 0, white_to_move => qminimax G p white_to_move 3
  | p, depth + 1, white_to_move =>
      if G.is_game_over p then qminimax G p white_to_move 3
      else if white_to_move then
        fold_max ((G.legal_moves p).map
          (fun move => minimax G (G.push p move) depth false))
      else
        fold_min ((G.legal_moves p).map
          (fun move => minimax G (G.push p move) depth true))

/-! ### Python-level execution faults (module namespace and call binding)

`AlphaBetaPruning.search` (lines 121-123) and the loops of the two searchers
contain Python dynamic-name faults that the functional embedding above cannot
show; they are modelled here by embedding the relevant pieces of Python
semantics: the module's global namespace and positional/keyword call binding.
-/

/-- The names bound at module level in `strategies.py`:
`from chess.engine import PlayResult` binds only `PlayResult` (not `chess`),
`import random` / `import math` bind `random` / `math`,
`from engine_wrapper import EngineWrapper` binds `EngineWrapper`, and the six
class statements bind the class names.  In particular neither `chess` nor the
counter names `total_branches_pruned` /
`total_quiescence_positions_evaluated` (used with `global` and `+=` but never
assigned first) are ever bound. -/
def module_bindings : List String :=
  ["PlayResult", "random", "math", "EngineWrapper",
   "FillerEngine", "MinimalEngine", "ExampleEngine",
   "RandomMove", "Alphabetical", "FirstMove", "AlphaBetaPruning"]

/-- Python errors the embedded execution model can surface.  `noLegalMoves`
is the error class the spec's §7 taxonomy asks for; it is included so that
statements about it are expressible. -/
inductive PyError where
  | nameError (n : String) : PyError
  | typeError (param : String) : PyError
  | noLegalMoves : PyError
deriving DecidableEq

/-- Python call binding: calling a function whose parameter list is `params`
with `npos` positional arguments and keyword arguments `kws` raises
`TypeError: got multiple values for argument k` when a keyword `k` names a
parameter already filled positionally. -/
def py_call_duplicate_arg (params : List String) (npos : Nat)
    (kws : List String) : Bool :=
  kws.any (fun k => (params.take npos).contains k)

/-- The parameter list of `move_ordering_sort` (line 291): the `self`
parameter is missing, so the parameters are exactly `board` and
`only_captures`. -/
def move_ordering_sort_params : List String := ["board", "only_captures"]

/-- The bound-method call `self.move_ordering_sort(board, only_captures=...)`
(lines 162 and 218): Python prepends the instance, so two positional
arguments (`self`, `board`) and the keyword `only_captures` reach
`move_ordering_sort_params` — the keyword collides with the second
positional. -/
def move_ordering_sort_call_faults : Bool :=
  py_call_duplicate_arg move_ordering_sort_params 2 ["only_captures"]

/-- `AlphaBetaPruning.search`, lines 121-123, as executed by Python:
`PlayResult(self.alphabeta_search(board, 4, board.turn == chess.WHITE,
-math.inf, math.inf)[0], None)`.  Arguments are evaluated left to right:
`board`, the literal `4`, then `board.turn == chess.WHITE` — resolving the
global name `chess` fails (`chess ∉ module_bindings`), raising `NameError`
before `alphabeta_search` is entered.  The `ok` branch records what the line
would produce were `chess` bound (`chess.WHITE` is the boolean true, so the
flag is `board.turn`); it is unreachable, and even then the first
`self.move_ordering_sort(...)` call would raise the `TypeError` recorded by
`move_ordering_sort_call_faults`. -/
def search_exec (G : GameModel Pos Move) (shuffle : List Move → List Move)
    (p : Pos) : Except PyError (MoveResult Move) :=
  let _turn := G.turn_white p
  if "chess" ∈ module_bindings then
    Except.ok (alphabeta_search G shuffle p 4 (G.turn_white p) ⊥ ⊤).1
  else
    Except.error (PyError.nameError "chess")

/-! ### Instrumented search: explicit `push`/`pop` events

For the stack-discipline claim the searchers are re-embedded with the board
state threaded explicitly: `board` is the current position, `stack` the saved
positions (`board.push` saves the current position, `board.pop` restores the
most recent one), and `pushes`/`pops` count the calls. -/

/-- The mutable board as the Python code sees it: current position, the
undo stack, and event counters. -/
structure SearchState (Pos : Type) where
  board : Pos
  stack : List Pos
  pushes : Nat
  pops : Nat
deriving DecidableEq

/-- `board.push(move)`: advance the board, saving the old position. -/
def st_push (G : GameModel Pos Move) (s : SearchState Pos) (move : Move) :
    SearchState Pos :=
  { board := G.push s.board move, stack := s.board :: s.stack,
    pushes := s.pushes + 1, pops := s.pops }

/-- `board.pop()`: restore the most recently saved position.  On an empty
stack Python would raise; the total-function embedding leaves the board in
place there, and the stack-discipline theorems show that branch is never
taken during the search. -/
def st_pop (s : SearchState Pos) : SearchState Pos :=
  match s.stack with
  | prev :: rest =>
      { board := prev, stack := rest, pushes := s.pushes, pops := s.pops + 1 }
  | [] => { s with pops := s.pops + 1 }

/-- State-threaded form of the maximizing loop (lines 169-188 / 244-263):
`board.push(move)`, recurse on the mutated board, update
`best_eval`/`best_move`, `board.pop()`, raise `alpha`, break on
`alpha >= beta`. -/
def ab_max_loop_st (G : GameModel Pos Move)
    (recurse : SearchState Pos → Score → Score → Score × SearchState Pos) :
    List Move → SearchState Pos → Score → Score → Score → MoveResult Move →
      (MoveResult Move × Score) × SearchState Pos
  | [], s, _alpha, _beta, best_eval, best_move => ((best_move, best_eval), s)
  | move :: rest, s, alpha, beta, best_eval, best_move =>
      let s1 := st_push G s move
      let cs := recurse s1 alpha beta
      let current_eval := cs.1
      let best_eval' := if best_eval < current_eval then current_eval else best_eval
      let best_move' := if best_eval < current_eval then MoveResult.move move else best_move
      let s2 := st_pop cs.2
      let alpha' := max alpha current_eval
      if beta ≤ alpha' then ((best_move', best_eval'), s2)
      else ab_max_loop_st G recurse rest s2 alpha' beta best_eval' best_move'

/-- State-threaded form of the minimizing loop (lines 191-206 / 266-283). -/
def ab_min_loop_st (G : GameModel Pos Move)
    (recurse : SearchState Pos → Score → Score → Score × SearchState Pos) :
    List Move → SearchState Pos → Score → Score → Score → MoveResult Move →
      (MoveResult Move × Score) × SearchState Pos
  | [], s, _alpha, _beta, best_eval, best_move => ((best_move, best_eval), s)
  | move :: rest, s, alpha, beta, best_eval, best_move =>
      let s1 := st_push G s move
      let cs := recurse s1 alpha beta
      let current_eval := cs.1
      let best_eval' := if current_eval < best_eval then current_eval else best_eval
      let best_move' := if current_eval < best_eval then MoveResult.move move else best_move
      let s2 := st_pop cs.2
      let beta' := min beta current_eval
      if beta' ≤ alpha then ((best_move', best_eval'), s2)
      else ab_min_loop_st G recurse rest s2 alpha beta' best_eval' best_move'

/-- State-threaded `quiescence_search` (same structure as the functional
embedding, reading the position from the threaded board). -/
def quiescence_search_st (G : GameModel Pos Move) :
    SearchState Pos → Bool → Score → Score → Nat →
      (MoveResult Move × Score) × SearchState Pos
  | s, _white_to_move, _alpha, _beta, 0 =>
      ((MoveResult.noneval, Score.I (evaluate_position G s.board)), s)
  | s, white_to_move, alpha, beta, depth + 1 =>
      let moves_list := move_ordering_sort G s.board true
      if G.is_game_over s.board || moves_list.isEmpty then
        ((MoveResult.noneval, Score.I (evaluate_position G s.board)), s)
      else
        if white_to_move then
          ab_max_loop_st G
            (fun t a b =>
              let r := quiescence_search_st G t false a b depth
              (r.1.2, r.2))
            moves_list s alpha beta ⊥ MoveResult.sentinel
        else
          ab_min_loop_st G
            (fun t a b =>
              let r := quiescence_search_st G t true a b depth
              (r.1.2, r.2))
            moves_list s alpha beta ⊤ MoveResult.sentinel

/-- State-threaded `alphabeta_search`. -/
def alphabeta_search_st (G : GameModel Pos Move)
    (shuffle : List Move → List Move) :
    SearchState Pos → Nat → Bool → Score → Score →
      (MoveResult Move × Score) × SearchState Pos
  | s, 0, white_to_move, alpha, beta =>
      let r := quiescence_search_st G s white_to_move alpha beta 3
      ((MoveResult.noneval, r.1.2), r.2)
  | s, depth + 1, white_to_move, alpha, beta =>
      if G.is_game_over s.board then
        let r := quiescence_search_st G s white_to_move alpha beta 3
        ((MoveResult.noneval, r.1.2), r.2)
      else
        let moves_list := shuffle (move_ordering_sort G s.board false)
        if white_to_move then
          ab_max_loop_st G
            (fun t a b =>
              let r := alphabeta_search_st G shuffle t depth false a b
              (r.1.2, r.2))
            moves_list s alpha beta ⊥ MoveResult.sentinel
        else
          ab_min_loop_st G
            (fun t a b =>
              let r := alphabeta_search_st G shuffle t depth true a b
              (r.1.2, r.2))
            moves_list s alpha beta ⊤ MoveResult.sentinel

/-! ### Concrete instances used for witnesses and counterexamples -/

/-- A small concrete game for witnesses: position `0` (ongoing) has moves
`1`, `2`; position `1` (ongoing) has move `3`; positions `≥ 2` are over with
result `"1-0"`.  A position is game-over exactly when it has no legal moves,
as in chess checkmate/stalemate. -/
def demoG : GameModel Nat Nat where
  legal_moves p := if p = 0 then [1, 2] else if p = 1 then [3] else []
  is_capture p m := p = 0 && m = 2
  is_game_over p := 2 ≤ p
  outcome_result p := if 2 ≤ p then some "1-0" else none
  board_fen p := if p = 1 then "PPq" else "P"
  turn_white _ := true
  push _ m := m

/-- A concrete game whose root is game-over while still having a legal move,
as a chess position drawn by insufficient material (e.g. K vs K) is:
`board.is_game_over()` is true yet `board.legal_moves` is non-empty. -/
def overG : GameModel Nat Nat where
  legal_moves _ := [5]
  is_capture _ _ := false
  is_game_over _ := true
  outcome_result _ := some "1/2-1/2"
  board_fen _ := "P"
  turn_white _ := true
  push _ m := m

/-- A concrete game with an empty legal-move set everywhere. -/
def emptyG : GameModel Nat Nat where
  legal_moves _ := []
  is_capture _ _ := false
  is_game_over _ := true
  outcome_result _ := some "1/2-1/2"
  board_fen _ := ""
  turn_white _ := true
  push _ m := m

/-- Clamping a score into a window: `min b (max a x)`.  Alpha-beta returns a
value that agrees with the full-width minimax value after clamping into the
`(alpha, beta)` window. -/
def clamp (a b x : Score) : Score := min b (max a x)

/-- Relation between the board state on entry to a search call and on return:
the board and the undo stack are restored, and pushes and pops advanced by the
same amount. -/
def StatePreserved {Pos : Type} (s t : SearchState Pos) : Prop :=
  t.board = s.board ∧ t.stack = s.stack ∧ t.pushes + s.pops = t.pops + s.pushes

/-! ### Basic facts about scores -/

theorem Score.bot_lt_I (n : ℤ) : (⊥ : Score) < Score.I n :=
  WithBot.bot_lt_coe _

theorem Score.I_lt_top (n : ℤ) : Score.I n < (⊤ : Score) :=
  WithBot.coe_lt_coe.mpr (WithTop.coe_lt_top n)

/-! ### Lemmas about the two pruning loops -/

section Loops

variable {Pos Move : Type} (pushto : Move → Pos)
variable (r : Pos → Score → Score → Score)

/-- The maximizing loop never returns less than its running best. -/
theorem ab_max_loop_ge :
    ∀ (ms : List Move) (alpha beta be : Score) (bm : MoveResult Move),
      be ≤ (ab_max_loop pushto r ms alpha beta be bm).2 := by
  intro ms
  induction ms with
  | nil => intro alpha beta be bm; simp [ab_max_loop]
  | cons m rest ih =>
      intro alpha beta be bm
      simp only [ab_max_loop]
      split
      · split_ifs with h
        · exact le_of_lt h
        · exact le_rfl
      · refine le_trans ?_ (ih _ _ _ _)
        split_ifs with h
        · exact le_of_lt h
        · exact le_rfl

/-- The minimizing loop never returns more than its running best. -/
theorem ab_min_loop_le :
    ∀ (ms : List Move) (alpha beta be : Score) (bm : MoveResult Move),
      (ab_min_loop pushto r ms alpha beta be bm).2 ≤ be := by
  intro ms
  induction ms with
  | nil => intro alpha beta be bm; simp [ab_min_loop]
  | cons m rest ih =>
      intro alpha beta be bm
      simp only [ab_min_loop]
      split
      · split_ifs with h
        · exact le_of_lt h
        · exact le_rfl
      · refine le_trans (ih _ _ _ _) ?_
        split_ifs with h
        · exact le_of_lt h
        · exact le_rfl

/-- The move returned by the maximizing loop is the initial best-move or a
member of the move list. -/
theorem ab_max_loop_move_src :
    ∀ (ms : List Move) (alpha beta be : Score) (bm : MoveResult Move),
      (ab_max_loop pushto r ms alpha beta be bm).1 = bm ∨
        ∃ m ∈ ms, (ab_max_loop pushto r ms alpha beta be bm).1 = MoveResult.move m := by
  intro ms
  induction ms with
  | nil => intro alpha beta be bm; left; simp [ab_max_loop]
  | cons m rest ih =>
      intro alpha beta be bm
      simp only [ab_max_loop]
      split
      · split_ifs with h
        · right; exact ⟨m, List.mem_cons_self m rest, rfl⟩
        · left; rfl
      · split_ifs with h
        · rcases ih (max alpha (r (pushto m) alpha beta)) beta (r (pushto m) alpha beta)
            (MoveResult.move m) with h1 | ⟨m', hm', h1⟩
          · right; exact ⟨m, List.mem_cons_self m rest, h1⟩
          · right; exact ⟨m', List.mem_cons_of_mem m hm', h1⟩
        · rcases ih (max alpha (r (pushto m) alpha beta)) beta be bm with h1 | ⟨m', hm', h1⟩
          · left; exact h1
          · right; exact ⟨m', List.mem_cons_of_mem m hm', h1⟩

/-- The move returned by the minimizing loop is the initial best-move or a
member of the move list. -/
theorem ab_min_loop_move_src :
    ∀ (ms : List Move) (alpha beta be : Score) (bm : MoveResult Move),
      (ab_min_loop pushto r ms alpha beta be bm).1 = bm ∨
        ∃ m ∈ ms, (ab_min_loop pushto r ms alpha beta be bm).1 = MoveResult.move m := by
  intro ms
  induction ms with
  | nil => intro alpha beta be bm; left; simp [ab_min_loop]
  | cons m rest ih =>
      intro alpha beta be bm
      simp only [ab_min_loop]
      split
      · split_ifs with h
        · right; exact ⟨m, List.mem_cons_self m rest, rfl⟩
        · left; rfl
      · split_ifs with h
        · rcases ih alpha (min beta (r (pushto m) alpha beta)) (r (pushto m) alpha beta)
            (MoveResult.move m) with h1 | ⟨m', hm', h1⟩
          · right; exact ⟨m, List.mem_cons_self m rest, h1⟩
          · right; exact ⟨m', List.mem_cons_of_mem m hm', h1⟩
        · rcases ih alpha (min beta (r (pushto m) alpha beta)) be bm with h1 | ⟨m', hm', h1⟩
          · left; exact h1
          · right; exact ⟨m', List.mem_cons_of_mem m hm', h1⟩

/-- If the running best and every recursive evaluation are below `+inf`, so is
the value returned by the maximizing loop. -/
theorem ab_max_loop_lt_top :
    ∀ (ms : List Move) (alpha beta be : Score) (bm : MoveResult Move),
      be < ⊤ → (∀ m ∈ ms, ∀ a b, r (pushto m) a b < ⊤) →
      (ab_max_loop pushto r ms alpha beta be bm).2 < ⊤ := by
  intro ms
  induction ms with
  | nil => intro alpha beta be bm hbe _; simpa [ab_max_loop] using hbe
  | cons m rest ih =>
      intro alpha beta be bm hbe hr
      simp only [ab_max_loop]
      split
      · split_ifs with h
        · exact hr m (List.mem_cons_self m rest) alpha beta
        · exact hbe
      · refine ih _ _ _ _ ?_ (fun m' hm' => hr m' (List.mem_cons_of_mem m hm'))
        split_ifs with h
        · exact hr m (List.mem_cons_self m rest) alpha beta
        · exact hbe

/-- If the running best and every recursive evaluation are above `-inf`, so is
the value returned by the minimizing loop. -/
theorem ab_min_loop_gt_bot :
    ∀ (ms : List Move) (alpha beta be : Score) (bm : MoveResult Move),
      ⊥ < be → (∀ m ∈ ms, ∀ a b, ⊥ < r (pushto m) a b) →
      ⊥ < (ab_min_loop pushto r ms alpha beta be bm).2 := by
  intro ms
  induction ms with
  | nil => intro alpha beta be bm hbe _; simpa [ab_min_loop] using hbe
  | cons m rest ih =>
      intro alpha beta be bm hbe hr
      simp only [ab_min_loop]
      split
      · split_ifs with h
        · exact hr m (List.mem_cons_self m rest) alpha beta
        · exact hbe
      · refine ih _ _ _ _ ?_ (fun m' hm' => hr m' (List.mem_cons_of_mem m hm'))
        split_ifs with h
        · exact hr m (List.mem_cons_self m rest) alpha beta
        · exact hbe

/-- On a non-empty list, starting from `best_eval = -inf`, the maximizing loop
returns a value above `-inf` (the first evaluation replaces the `-inf`). -/
theorem ab_max_loop_gt_bot :
    ∀ (ms : List Move) (alpha beta : Score) (bm : MoveResult Move),
      ms ≠ [] → (∀ m ∈ ms, ∀ a b, ⊥ < r (pushto m) a b) →
      ⊥ < (ab_max_loop pushto r ms alpha beta ⊥ bm).2 := by
  intro ms alpha beta bm hne hr
  match ms, hne with
  | m :: rest, _ =>
      have hgt : (⊥ : Score) < r (pushto m) alpha beta :=
        hr m (List.mem_cons_self m rest) alpha beta
      simp only [ab_max_loop]
      split
      · simp [hgt]
      · refine lt_of_lt_of_le ?_ (ab_max_loop_ge pushto r rest _ _ _ _)
        simp [hgt]

/-- On a non-empty list, starting from `best_eval = inf`, the minimizing loop
returns a value below `+inf`. -/
theorem ab_min_loop_lt_top :
    ∀ (ms : List Move) (alpha beta : Score) (bm : MoveResult Move),
      ms ≠ [] → (∀ m ∈ ms, ∀ a b, r (pushto m) a b < ⊤) →
      (ab_min_loop pushto r ms alpha beta ⊤ bm).2 < ⊤ := by
  intro ms alpha beta bm hne hr
  match ms, hne with
  | m :: rest, _ =>
      have hlt : r (pushto m) alpha beta < ⊤ :=
        hr m (List.mem_cons_self m rest) alpha beta
      simp only [ab_min_loop]
      split
      · simp [hlt]
      · refine lt_of_le_of_lt (ab_min_loop_le pushto r rest _ _ _ _) ?_
        simp [hlt]

/-- On a non-empty list with `best_eval = -inf` and all evaluations finite on
the left, the first iteration of the maximizing loop installs a move from the
list, so the returned move is a member of the list (never the sentinel). -/
theorem ab_max_loop_fst_move :
    ∀ (ms : List Move) (alpha beta : Score) (bm : MoveResult Move),
      ms ≠ [] → (∀ m ∈ ms, ∀ a b, ⊥ < r (pushto m) a b) →
      ∃ m ∈ ms, (ab_max_loop pushto r ms alpha beta ⊥ bm).1 = MoveResult.move m := by
  intro ms alpha beta bm hne hr
  match ms, hne with
  | m :: rest, _ =>
      have hgt : (⊥ : Score) < r (pushto m) alpha beta :=
        hr m (List.mem_cons_self m rest) alpha beta
      simp only [ab_max_loop]
      split
      · exact ⟨m, List.mem_cons_self m rest, by simp [hgt]⟩
      · rcases ab_max_loop_move_src pushto r rest (max alpha (r (pushto m) alpha beta)) beta
            (r (pushto m) alpha beta) (MoveResult.move m) with h1 | ⟨m', hm', h1⟩
        · exact ⟨m, List.mem_cons_self m rest, h1⟩
        · exact ⟨m', List.mem_cons_of_mem m hm', h1⟩

/-- On a non-empty list with `best_eval = inf` and all evaluations below
`+inf`, the minimizing loop returns a move from the list. -/
theorem ab_min_loop_fst_move :
    ∀ (ms : List Move) (alpha beta : Score) (bm : MoveResult Move),
      ms ≠ [] → (∀ m ∈ ms, ∀ a b, r (pushto m) a b < ⊤) →
      ∃ m ∈ ms, (ab_min_loop pushto r ms alpha beta ⊤ bm).1 = MoveResult.move m := by
  intro ms alpha beta bm hne hr
  match ms, hne with
  | m :: rest, _ =>
      have hlt : r (pushto m) alpha beta < ⊤ :=
        hr m (List.mem_cons_self m rest) alpha beta
      simp only [ab_min_loop]
      split
      · exact ⟨m, List.mem_cons_self m rest, by simp [hlt]⟩
      · rcases ab_min_loop_move_src pushto r rest alpha (min beta (r (pushto m) alpha beta))
            (r (pushto m) alpha beta) (MoveResult.move m) with h1 | ⟨m', hm', h1⟩
        · exact ⟨m, List.mem_cons_self m rest, h1⟩
        · exact ⟨m', List.mem_cons_of_mem m hm', h1⟩

/-- The update `best_eval = current if current > best else best` is a max. -/
theorem ite_lt_max (x y : Score) : (if x < y then y else x) = max x y := by
  split_ifs with h
  · exact (max_eq_right (le_of_lt h)).symm
  · exact (max_eq_left (not_lt.mp h)).symm

/-- The update `best_eval = current if current < best else best` is a min. -/
theorem ite_lt_min (x y : Score) : (if y < x then y else x) = min x y := by
  split_ifs with h
  · exact (min_eq_right (le_of_lt h)).symm
  · exact (min_eq_left (not_lt.mp h)).symm

/-- Folding max from a seed factors the seed out. -/
theorem foldl_max_factor (w : Move → Score) :
    ∀ (ms : List Move) (be : Score),
      ms.foldl (fun acc m => max acc (w m)) be
        = max be (ms.foldl (fun acc m => max acc (w m)) ⊥) := by
  intro ms
  induction ms with
  | nil => intro be; simp
  | cons m rest ih =>
      intro be
      simp only [List.foldl_cons]
      rw [ih (max be (w m)), ih (max ⊥ (w m)), max_eq_right bot_le, max_assoc]

/-- Folding min from a seed factors the seed out. -/
theorem foldl_min_factor (w : Move → Score) :
    ∀ (ms : List Move) (be : Score),
      ms.foldl (fun acc m => min acc (w m)) be
        = min be (ms.foldl (fun acc m => min acc (w m)) ⊤) := by
  intro ms
  induction ms with
  | nil => intro be; simp
  | cons m rest ih =>
      intro be
      simp only [List.foldl_cons]
      rw [ih (min be (w m)), ih (min ⊤ (w m)), min_eq_right le_top, min_assoc]

/-- A max-fold dominates its seed. -/
theorem le_foldl_max (w : Move → Score) (ms : List Move) (be : Score) :
    be ≤ ms.foldl (fun acc m => max acc (w m)) be := by
  rw [foldl_max_factor]; exact le_max_left _ _

/-- A min-fold is dominated by its seed. -/
theorem foldl_min_le (w : Move → Score) (ms : List Move) (be : Score) :
    ms.foldl (fun acc m => min acc (w m)) be ≤ be := by
  rw [foldl_min_factor]; exact min_le_left _ _

/-- Windowed correctness of the maximizing loop: if each recursive call agrees
with its true value after clamping into any window, then the loop's result
agrees, after clamping into the loop's window, with the plain maximum of the
true child values — the backed-up value a full-width maximum would produce. -/
theorem ab_max_loop_clamp (w : Move → Score) :
    ∀ (ms : List Move) (alpha beta be : Score) (bm : MoveResult Move),
      alpha < beta → be ≤ alpha →
      (∀ m ∈ ms, ∀ a b, a < b → clamp a b (r (pushto m) a b) = clamp a b (w m)) →
      clamp alpha beta (ab_max_loop pushto r ms alpha beta be bm).2
        = clamp alpha beta (ms.foldl (fun acc m => max acc (w m)) be) := by
  intro ms
  induction ms with
  | nil => intro alpha beta be bm hab hbe _; simp [ab_max_loop]
  | cons m rest ih =>
    intro alpha beta be bm hab hbe hH
    have hwm : clamp alpha beta (r (pushto m) alpha beta) = clamp alpha beta (w m) :=
      hH m (List.mem_cons_self m rest) alpha beta hab
    have hHrest : ∀ m' ∈ rest, ∀ a b, a < b →
        clamp a b (r (pushto m') a b) = clamp a b (w m') :=
      fun m' hm' => hH m' (List.mem_cons_of_mem m hm')
    simp only [ab_max_loop, List.foldl_cons, ite_lt_max]
    set ce := r (pushto m) alpha beta with hcedef
    by_cases hcut : beta ≤ max alpha ce
    · rw [if_pos hcut]
      have hwmge : beta ≤ w m := by
        have h0 := hwm
        rw [clamp, clamp, min_eq_left hcut] at h0
        have h1 : beta ≤ max alpha (w m) := by
          rcases le_or_lt beta (max alpha (w m)) with h2 | h2
          · exact h2
          · rw [min_eq_right (le_of_lt h2)] at h0
            exact absurd h0.symm (ne_of_lt h2)
        rcases le_max_iff.mp h1 with h2 | h2
        · exact absurd h2 (not_le.mpr hab)
        · exact h2
      have hLHS : clamp alpha beta (max be ce) = beta := by
        rw [clamp, min_eq_left]
        exact le_trans hcut (max_le_max le_rfl (le_max_right be ce))
      have hRHS : clamp alpha beta
          (rest.foldl (fun acc m' => max acc (w m')) (max be (w m))) = beta := by
        rw [clamp, min_eq_left]
        have hf : max be (w m) ≤ rest.foldl (fun acc m' => max acc (w m')) (max be (w m)) :=
          le_foldl_max w rest (max be (w m))
        exact le_trans (le_trans (le_trans hwmge (le_max_right be (w m))) hf)
          (le_max_right alpha _)
      calc clamp alpha beta ((if be < ce then MoveResult.move m else bm, max be ce) :
              MoveResult Move × Score).2
          = clamp alpha beta (max be ce) := rfl
        _ = beta := hLHS
        _ = clamp alpha beta (rest.foldl (fun acc m' => max acc (w m')) (max be (w m))) :=
            hRHS.symm
    · rw [if_neg hcut]
      have halpha' : max alpha ce < beta := not_le.mp hcut
      have h1 : max alpha ce = min beta (max alpha (w m)) := by
        have h0 := hwm
        rw [clamp, clamp, min_eq_right (le_of_lt halpha')] at h0
        exact h0
      have hwm_lt : max alpha (w m) < beta := by
        rcases lt_or_le (max alpha (w m)) beta with h2 | h2
        · exact h2
        · rw [min_eq_left h2] at h1
          exact absurd h1 (ne_of_lt halpha')
      have h2 : max alpha ce = max alpha (w m) := by
        rw [min_eq_right (le_of_lt hwm_lt)] at h1; exact h1
      have hbe' : max be ce ≤ max alpha ce := max_le_max hbe le_rfl
      have hIH := ih (max alpha ce) beta (max be ce)
        (if be < ce then MoveResult.move m else bm) halpha' hbe' hHrest
      have hres_ge : max be ce ≤ (ab_max_loop pushto r rest (max alpha ce) beta (max be ce)
          (if be < ce then MoveResult.move m else bm)).2 :=
        ab_max_loop_ge pushto r rest _ _ _ _
      set res := (ab_max_loop pushto r rest (max alpha ce) beta (max be ce)
        (if be < ce then MoveResult.move m else bm)).2 with hresdef
      have hce_res : ce ≤ res := le_trans (le_max_right be ce) hres_ge
      have hb : max (max alpha ce) res = max alpha res := by
        rw [max_assoc, max_eq_right hce_res]
      have hT' : rest.foldl (fun acc m' => max acc (w m')) (max be ce)
          = max (max be ce) (rest.foldl (fun acc m' => max acc (w m')) ⊥) :=
        foldl_max_factor w rest (max be ce)
      have hT : rest.foldl (fun acc m' => max acc (w m')) (max be (w m))
          = max (max be (w m)) (rest.foldl (fun acc m' => max acc (w m')) ⊥) :=
        foldl_max_factor w rest (max be (w m))
      set M := rest.foldl (fun acc m' => max acc (w m')) ⊥ with hMdef
      have hTeq : max (max alpha ce) (max (max be ce) M)
          = max alpha (max (max be (w m)) M) := by
        rw [← max_assoc, max_eq_left hbe', ← max_assoc, ← max_assoc,
          max_eq_left hbe, ← h2]
      calc clamp alpha beta res
          = clamp (max alpha ce) beta res := by rw [clamp, clamp, hb]
        _ = clamp (max alpha ce) beta
              (rest.foldl (fun acc m' => max acc (w m')) (max be ce)) := hIH
        _ = clamp alpha beta
              (rest.foldl (fun acc m' => max acc (w m')) (max be (w m))) := by
            rw [clamp, clamp, hT', hT, hTeq]

/-- Windowed correctness of the minimizing loop: dual of `ab_max_loop_clamp`. -/
theorem ab_min_loop_clamp (w : Move → Score) :
    ∀ (ms : List Move) (alpha beta be : Score) (bm : MoveResult Move),
      alpha < beta → beta ≤ be →
      (∀ m ∈ ms, ∀ a b, a < b → clamp a b (r (pushto m) a b) = clamp a b (w m)) →
      clamp alpha beta (ab_min_loop pushto r ms alpha beta be bm).2
        = clamp alpha beta (ms.foldl (fun acc m => min acc (w m)) be) := by
  intro ms
  induction ms with
  | nil => intro alpha beta be bm hab hbe _; simp [ab_min_loop]
  | cons m rest ih =>
    intro alpha beta be bm hab hbe hH
    have hwm : clamp alpha beta (r (pushto m) alpha beta) = clamp alpha beta (w m) :=
      hH m (List.mem_cons_self m rest) alpha beta hab
    have hHrest : ∀ m' ∈ rest, ∀ a b, a < b →
        clamp a b (r (pushto m') a b) = clamp a b (w m') :=
      fun m' hm' => hH m' (List.mem_cons_of_mem m hm')
    simp only [ab_min_loop, List.foldl_cons, ite_lt_min]
    set ce := r (pushto m) alpha beta with hcedef
    have halbe : alpha ≤ be := le_trans (le_of_lt hab) hbe
    by_cases hcut : min beta ce ≤ alpha
    · rw [if_pos hcut]
      have hcea : ce ≤ alpha := by
        rcases min_le_iff.mp hcut with h1 | h1
        · exact absurd h1 (not_le.mpr hab)
        · exact h1
      have hwmle : w m ≤ alpha := by
        have h0 := hwm
        rw [clamp, clamp, max_eq_left hcea, min_eq_right (le_of_lt hab)] at h0
        rcases le_or_lt (w m) alpha with h2 | h2
        · exact h2
        · rw [max_eq_right (le_of_lt h2)] at h0
          rcases le_total beta (w m) with h3 | h3
          · rw [min_eq_left h3] at h0
            exact absurd h0 (ne_of_lt hab)
          · rw [min_eq_right h3] at h0
            exact absurd h0 (ne_of_lt h2)
      have hLHS : clamp alpha beta (min be ce) = alpha := by
        rw [clamp, max_eq_left (le_trans (min_le_right be ce) hcea),
          min_eq_right (le_of_lt hab)]
      have hRHS : clamp alpha beta
          (rest.foldl (fun acc m' => min acc (w m')) (min be (w m))) = alpha := by
        have hf : rest.foldl (fun acc m' => min acc (w m')) (min be (w m)) ≤ min be (w m) :=
          foldl_min_le w rest (min be (w m))
        rw [clamp, max_eq_left (le_trans (le_trans hf (min_le_right be (w m))) hwmle),
          min_eq_right (le_of_lt hab)]
      calc clamp alpha beta ((if ce < be then MoveResult.move m else bm, min be ce) :
              MoveResult Move × Score).2
          = clamp alpha beta (min be ce) := rfl
        _ = alpha := hLHS
        _ = clamp alpha beta (rest.foldl (fun acc m' => min acc (w m')) (min be (w m))) :=
            hRHS.symm
    · rw [if_neg hcut]
      have hbeta' : alpha < min beta ce := not_le.mp hcut
      have hce_gt : alpha < ce := lt_of_lt_of_le hbeta' (min_le_right beta ce)
      have h1 : min beta ce = min beta (max alpha (w m)) := by
        have h0 := hwm
        rw [clamp, clamp, max_eq_right (le_of_lt hce_gt)] at h0
        exact h0
      have hbe' : min beta ce ≤ min be ce := min_le_min hbe le_rfl
      have hIH := ih alpha (min beta ce) (min be ce)
        (if ce < be then MoveResult.move m else bm) hbeta' hbe' hHrest
      have hres_le : (ab_min_loop pushto r rest alpha (min beta ce) (min be ce)
          (if ce < be then MoveResult.move m else bm)).2 ≤ min be ce :=
        ab_min_loop_le pushto r rest _ _ _ _
      set res := (ab_min_loop pushto r rest alpha (min beta ce) (min be ce)
        (if ce < be then MoveResult.move m else bm)).2 with hresdef
      have hres_ce : res ≤ ce := le_trans hres_le (min_le_right be ce)
      have hb : min (min beta ce) (max alpha res) = min beta (max alpha res) := by
        rw [min_assoc, min_eq_right (max_le (le_of_lt hce_gt) hres_ce)]
      have hT' : rest.foldl (fun acc m' => min acc (w m')) (min be ce)
          = min (min be ce) (rest.foldl (fun acc m' => min acc (w m')) ⊤) :=
        foldl_min_factor w rest (min be ce)
      have hT : rest.foldl (fun acc m' => min acc (w m')) (min be (w m))
          = min (min be (w m)) (rest.foldl (fun acc m' => min acc (w m')) ⊤) :=
        foldl_min_factor w rest (min be (w m))
      set M := rest.foldl (fun acc m' => min acc (w m')) ⊤ with hMdef
      have e1 : max alpha (min be ce) = min be ce :=
        max_eq_right (le_min halbe (le_of_lt hce_gt))
      have e2 : max alpha (min be (w m)) = min be (max alpha (w m)) := by
        rw [max_min_distrib_left, max_eq_right halbe]
      have hTeq : min (min beta ce) (max alpha (min (min be ce) M))
          = min beta (max alpha (min (min be (w m)) M)) := by
        calc min (min beta ce) (max alpha (min (min be ce) M))
            = min (min beta ce) (min (min be ce) (max alpha M)) := by
              rw [max_min_distrib_left, e1]
          _ = min (min be ce) (min (min beta ce) (max alpha M)) := by
              rw [min_left_comm]
          _ = min be (min ce (min (min beta ce) (max alpha M))) := by
              rw [min_assoc]
          _ = min be (min (min beta ce) (max alpha M)) := by
              rw [min_eq_right
                (le_trans (min_le_left (min beta ce) (max alpha M)) (min_le_right beta ce))]
          _ = min be (min (min beta (max alpha (w m))) (max alpha M)) := by
              rw [h1]
          _ = min be (min beta (min (max alpha (w m)) (max alpha M))) := by
              rw [min_assoc]
          _ = min beta (min be (min (max alpha (w m)) (max alpha M))) := by
              rw [min_left_comm]
          _ = min beta (max alpha (min (min be (w m)) M)) := by
              rw [max_min_distrib_left, e2, min_assoc]
      calc clamp alpha beta res
          = clamp alpha (min beta ce) res := by rw [clamp, clamp, hb]
        _ = clamp alpha (min beta ce)
              (rest.foldl (fun acc m' => min acc (w m')) (min be ce)) := hIH
        _ = clamp alpha beta
              (rest.foldl (fun acc m' => min acc (w m')) (min be (w m))) := by
            rw [clamp, clamp, hT', hT, hTeq]

end Loops

section SearchTheorems

variable {Pos Move : Type}

/-- With `only_captures`, the move orderer returns exactly the capture filter
of the legal moves, in enumeration order. -/
theorem mos_true (G : GameModel Pos Move) (p : Pos) :
    move_ordering_sort G p true
      = (G.legal_moves p).filter (fun move => G.is_capture p move) := by
  simp [move_ordering_sort]

/-- Without `only_captures`, the move orderer returns captures then quiet
moves, each in enumeration order. -/
theorem mos_false (G : GameModel Pos Move) (p : Pos) :
    move_ordering_sort G p false
      = (G.legal_moves p).filter (fun move => G.is_capture p move)
        ++ (G.legal_moves p).filter (fun move => ! G.is_capture p move) := by
  simp [move_ordering_sort]

/-- The captures-first ordering is a permutation of the legal moves. -/
theorem mos_false_perm (G : GameModel Pos Move) (p : Pos) :
    (move_ordering_sort G p false).Perm (G.legal_moves p) := by
  rw [mos_false]
  exact List.filter_append_perm _ _

/-- Max-folds are invariant under permutation of the list. -/
theorem foldl_max_perm (w : Move → Score) {l₁ l₂ : List Move} (h : l₁.Perm l₂)
    (be : Score) :
    l₁.foldl (fun acc m => max acc (w m)) be
      = l₂.foldl (fun acc m => max acc (w m)) be := by
  have inst : RightCommutative (fun (acc : Score) m => max acc (w m)) :=
    ⟨fun b a₁ a₂ => by rw [max_assoc, max_comm (w a₁), ← max_assoc]⟩
  exact h.foldl_eq be

/-- Min-folds are invariant under permutation of the list. -/
theorem foldl_min_perm (w : Move → Score) {l₁ l₂ : List Move} (h : l₁.Perm l₂)
    (be : Score) :
    l₁.foldl (fun acc m => min acc (w m)) be
      = l₂.foldl (fun acc m => min acc (w m)) be := by
  have inst : RightCommutative (fun (acc : Score) m => min acc (w m)) :=
    ⟨fun b a₁ a₂ => by rw [min_assoc, min_comm (w a₁), ← min_assoc]⟩
  exact h.foldl_eq be

/-- Windowed correctness of the quiescence search: inside any window
`alpha < beta`, its score agrees, after clamping, with the full-width
quiescence minimax value. -/
theorem quiescence_search_clamp (G : GameModel Pos Move) :
    ∀ (d : Nat) (p : Pos) (wt : Bool) (alpha beta : Score), alpha < beta →
      clamp alpha beta (quiescence_search G p wt alpha beta d).2
        = clamp alpha beta (qminimax G p wt d) := by
  intro d
  induction d with
  | zero => intro p wt alpha beta _; rfl
  | succ d ih =>
      intro p wt alpha beta hab
      simp only [quiescence_search, qminimax, mos_true]
      by_cases hterm : (G.is_game_over p
          || ((G.legal_moves p).filter (fun move => G.is_capture p move)).isEmpty) = true
      · rw [if_pos hterm, if_pos hterm]
      · rw [if_neg hterm, if_neg hterm]
        cases wt with
        | true =>
            rw [if_pos rfl, if_pos rfl]
            have h := ab_max_loop_clamp (G.push p)
              (fun q a b => (quiescence_search G q false a b d).2)
              (fun move => qminimax G (G.push p move) false d)
              ((G.legal_moves p).filter (fun move => G.is_capture p move))
              alpha beta ⊥ MoveResult.sentinel hab bot_le
              (fun move _ a b hab' => ih (G.push p move) false a b hab')
            rw [h, fold_max, List.foldl_map]
        | false =>
            rw [if_neg (by simp), if_neg (by simp)]
            have h := ab_min_loop_clamp (G.push p)
              (fun q a b => (quiescence_search G q true a b d).2)
              (fun move => qminimax G (G.push p move) true d)
              ((G.legal_moves p).filter (fun move => G.is_capture p move))
              alpha beta ⊤ MoveResult.sentinel hab le_top
              (fun move _ a b hab' => ih (G.push p move) true a b hab')
            rw [h, fold_min, List.foldl_map]

/-- Windowed correctness of the alpha-beta search: inside any window
`alpha < beta`, its score agrees, after clamping, with the full-width minimax
value, whatever permutation the shuffle produces. -/
theorem alphabeta_search_clamp (G : GameModel Pos Move)
    (shuffle : List Move → List Move) (hσ : ∀ l, (shuffle l).Perm l) :
    ∀ (d : Nat) (p : Pos) (wt : Bool) (alpha beta : Score), alpha < beta →
      clamp alpha beta (alphabeta_search G shuffle p d wt alpha beta).2
        = clamp alpha beta (minimax G p d wt) := by
  intro d
  induction d with
  | zero =>
      intro p wt alpha beta hab
      exact quiescence_search_clamp G 3 p wt alpha beta hab
  | succ d ih =>
      intro p wt alpha beta hab
      simp only [alphabeta_search, minimax]
      by_cases hov : G.is_game_over p = true
      · rw [if_pos hov, if_pos hov]
        exact quiescence_search_clamp G 3 p wt alpha beta hab
      · rw [if_neg hov, if_neg hov]
        have hperm : (shuffle (move_ordering_sort G p false)).Perm (G.legal_moves p) :=
          (hσ _).trans (mos_false_perm G p)
        cases wt with
        | true =>
            rw [if_pos rfl, if_pos rfl]
            have h := ab_max_loop_clamp (G.push p)
              (fun q a b => (alphabeta_search G shuffle q d false a b).2)
              (fun move => minimax G (G.push p move) d false)
              (shuffle (move_ordering_sort G p false))
              alpha beta ⊥ MoveResult.sentinel hab bot_le
              (fun move _ a b hab' => ih (G.push p move) false a b hab')
            rw [h, foldl_max_perm (fun move => minimax G (G.push p move) d false) hperm,
              fold_max, List.foldl_map]
        | false =>
            rw [if_neg (by simp), if_neg (by simp)]
            have h := ab_min_loop_clamp (G.push p)
              (fun q a b => (alphabeta_search G shuffle q d true a b).2)
              (fun move => minimax G (G.push p move) d true)
              (shuffle (move_ordering_sort G p false))
              alpha beta ⊤ MoveResult.sentinel hab le_top
              (fun move _ a b hab' => ih (G.push p move) true a b hab')
            rw [h, foldl_min_perm (fun move => minimax G (G.push p move) d true) hperm,
              fold_min, List.foldl_map]

/-- Clamping into the unbounded window `(-inf, inf)` is the identity. -/
theorem clamp_bot_top (x : Score) : clamp ⊥ ⊤ x = x := by
  simp [clamp]

/-- At the driver's window `(-math.inf, math.inf)` the alpha-beta score is
exactly the full-width minimax score. -/
theorem alphabeta_search_eq_minimax (G : GameModel Pos Move)
    (shuffle : List Move → List Move) (hσ : ∀ l, (shuffle l).Perm l)
    (p : Pos) (d : Nat) (wt : Bool) :
    (alphabeta_search G shuffle p d wt ⊥ ⊤).2 = minimax G p d wt := by
  have h := alphabeta_search_clamp G shuffle hσ d p wt ⊥ ⊤ bot_lt_top
  rwa [clamp_bot_top, clamp_bot_top] at h

/-- Quiescence scores are always strictly between `-inf` and `+inf`: the
terminal branch returns an integer evaluation, and in the recursive branch the
first capture's evaluation replaces the `∓inf` seed. -/
theorem quiescence_search_bounds (G : GameModel Pos Move) :
    ∀ (d : Nat) (p : Pos) (wt : Bool) (alpha beta : Score),
      ⊥ < (quiescence_search G p wt alpha beta d).2 ∧
        (quiescence_search G p wt alpha beta d).2 < ⊤ := by
  intro d
  induction d with
  | zero =>
      intro p wt alpha beta
      exact ⟨Score.bot_lt_I _, Score.I_lt_top _⟩
  | succ d ih =>
      intro p wt alpha beta
      simp only [quiescence_search]
      by_cases hterm : (G.is_game_over p || (move_ordering_sort G p true).isEmpty) = true
      · rw [if_pos hterm]
        exact ⟨Score.bot_lt_I _, Score.I_lt_top _⟩
      · rw [if_neg hterm]
        have hne : move_ordering_sort G p true ≠ [] := by
          intro hnil
          exact hterm (by simp [hnil])
        cases wt with
        | true =>
            rw [if_pos rfl]
            constructor
            · exact ab_max_loop_gt_bot (G.push p)
                (fun q a b => (quiescence_search G q false a b d).2)
                (move_ordering_sort G p true) alpha beta MoveResult.sentinel hne
                (fun move _ a b => (ih (G.push p move) false a b).1)
            · exact ab_max_loop_lt_top (G.push p)
                (fun q a b => (quiescence_search G q false a b d).2)
                (move_ordering_sort G p true) alpha beta ⊥ MoveResult.sentinel bot_lt_top
                (fun move _ a b => (ih (G.push p move) false a b).2)
        | false =>
            rw [if_neg (by simp)]
            constructor
            · exact ab_min_loop_gt_bot (G.push p)
                (fun q a b => (quiescence_search G q true a b d).2)
                (move_ordering_sort G p true) alpha beta ⊤ MoveResult.sentinel bot_lt_top
                (fun move _ a b => (ih (G.push p move) true a b).1)
            · exact ab_min_loop_lt_top (G.push p)
                (fun q a b => (quiescence_search G q true a b d).2)
                (move_ordering_sort G p true) alpha beta MoveResult.sentinel hne
                (fun move _ a b => (ih (G.push p move) true a b).2)

/-- In a game model where a position that is not over always has a legal move
(as in chess, where no-legal-moves means checkmate or stalemate), alpha-beta
scores are always strictly between `-inf` and `+inf`. -/
theorem alphabeta_search_bounds (G : GameModel Pos Move)
    (shuffle : List Move → List Move)
    (hmoves : ∀ q, G.is_game_over q = false → G.legal_moves q ≠ [])
    (hσ : ∀ l, (shuffle l).Perm l) :
    ∀ (d : Nat) (p : Pos) (wt : Bool) (alpha beta : Score),
      ⊥ < (alphabeta_search G shuffle p d wt alpha beta).2 ∧
        (alphabeta_search G shuffle p d wt alpha beta).2 < ⊤ := by
  intro d
  induction d with
  | zero =>
      intro p wt alpha beta
      exact quiescence_search_bounds G 3 p wt alpha beta
  | succ d ih =>
      intro p wt alpha beta
      simp only [alphabeta_search]
      by_cases hov : G.is_game_over p = true
      · rw [if_pos hov]
        exact quiescence_search_bounds G 3 p wt alpha beta
      · rw [if_neg hov]
        have hne : shuffle (move_ordering_sort G p false) ≠ [] := by
          intro hnil
          have hperm : (shuffle (move_ordering_sort G p false)).Perm (G.legal_moves p) :=
            (hσ _).trans (mos_false_perm G p)
          rw [hnil] at hperm
          exact hmoves p (Bool.not_eq_true (G.is_game_over p) ▸ hov) hperm.nil_eq.symm
        cases wt with
        | true =>
            rw [if_pos rfl]
            constructor
            · exact ab_max_loop_gt_bot (G.push p)
                (fun q a b => (alphabeta_search G shuffle q d false a b).2)
                (shuffle (move_ordering_sort G p false)) alpha beta MoveResult.sentinel hne
                (fun move _ a b => (ih (G.push p move) false a b).1)
            · exact ab_max_loop_lt_top (G.push p)
                (fun q a b => (alphabeta_search G shuffle q d false a b).2)
                (shuffle (move_ordering_sort G p false)) alpha beta ⊥ MoveResult.sentinel
                bot_lt_top (fun move _ a b => (ih (G.push p move) false a b).2)
        | false =>
            rw [if_neg (by simp)]
            constructor
            · exact ab_min_loop_gt_bot (G.push p)
                (fun q a b => (alphabeta_search G shuffle q d true a b).2)
                (shuffle (move_ordering_sort G p false)) alpha beta ⊤ MoveResult.sentinel
                bot_lt_top (fun move _ a b => (ih (G.push p move) true a b).1)
            · exact ab_min_loop_lt_top (G.push p)
                (fun q a b => (alphabeta_search G shuffle q d true a b).2)
                (shuffle (move_ordering_sort G p false)) alpha beta MoveResult.sentinel hne
                (fun move _ a b => (ih (G.push p move) true a b).2)

/-! ### The evaluator -/

/-- The dict lookup of line 132 agrees pointwise with the spec's signed value
table. -/
theorem char_value_eq_spec (c : Char) : char_value c = spec_material_value c := by
  by_cases h1 : c = 'p'
  · subst h1; decide
  by_cases h2 : c = 'P'
  · subst h2; decide
  by_cases h3 : c = 'r'
  · subst h3; decide
  by_cases h4 : c = 'R'
  · subst h4; decide
  by_cases h5 : c = 'n'
  · subst h5; decide
  by_cases h6 : c = 'N'
  · subst h6; decide
  by_cases h7 : c = 'b'
  · subst h7; decide
  by_cases h8 : c = 'B'
  · subst h8; decide
  by_cases h9 : c = 'q'
  · subst h9; decide
  by_cases h10 : c = 'Q'
  · subst h10; decide
  have e1 : (c == 'p') = false := beq_eq_false_iff_ne.mpr h1
  have e2 : (c == 'P') = false := beq_eq_false_iff_ne.mpr h2
  have e3 : (c == 'r') = false := beq_eq_false_iff_ne.mpr h3
  have e4 : (c == 'R') = false := beq_eq_false_iff_ne.mpr h4
  have e5 : (c == 'n') = false := beq_eq_false_iff_ne.mpr h5
  have e6 : (c == 'N') = false := beq_eq_false_iff_ne.mpr h6
  have e7 : (c == 'b') = false := beq_eq_false_iff_ne.mpr h7
  have e8 : (c == 'B') = false := beq_eq_false_iff_ne.mpr h8
  have e9 : (c == 'q') = false := beq_eq_false_iff_ne.mpr h9
  have e10 : (c == 'Q') = false := beq_eq_false_iff_ne.mpr h10
  rw [char_value, piece_values]
  simp only [List.lookup, e1, e2, e3, e4, e5, e6, e7, e8, e9, e10]
  rw [spec_material_value]
  simp [h1, h2, h3, h4, h5, h6, h7, h8, h9, h10]

/-- Every character's material value lies between `-9` and `9`. -/
theorem char_value_bounds (c : Char) : -9 ≤ char_value c ∧ char_value c ≤ 9 := by
  rw [char_value_eq_spec, spec_material_value]
  split_ifs <;> omega

/-- The evaluator's fold is the sum of per-character values. -/
theorem char_fold_eq_sum :
    ∀ (l : List Char) (acc : Int),
      l.foldl (fun a c => a + char_value c) acc = acc + (l.map char_value).sum := by
  intro l
  induction l with
  | nil => intro acc; simp
  | cons c rest ih =>
      intro acc
      simp only [List.foldl_cons, List.map_cons, List.sum_cons, ih]
      ring

/-- The material sum is bounded by nine points per counted piece: at most
`9` per positively-valued (side-A) character and at least `-9` per
negatively-valued (side-B) character. -/
theorem material_sum_bounds :
    ∀ (l : List Char),
      (l.map char_value).sum ≤ 9 * (l.countP (fun c => decide (0 < char_value c)) : ℤ) ∧
        -9 * (l.countP (fun c => decide (char_value c < 0)) : ℤ) ≤ (l.map char_value).sum := by
  intro l
  induction l with
  | nil => simp
  | cons c rest ih =>
      obtain ⟨hlb, hub⟩ := char_value_bounds c
      obtain ⟨ih1, ih2⟩ := ih
      simp only [List.map_cons, List.sum_cons, List.countP_cons]
      by_cases h1 : 0 < char_value c
      · have e1 : decide (0 < char_value c) = true := decide_eq_true h1
        have e2 : decide (char_value c < 0) = false := decide_eq_false (by omega)
        simp only [e1, e2, if_true, if_false, Nat.cast_add, Nat.cast_one, Nat.cast_zero]
        constructor <;> omega
      · have e1 : decide (0 < char_value c) = false := decide_eq_false h1
        by_cases h2 : char_value c < 0
        · have e2 : decide (char_value c < 0) = true := decide_eq_true h2
          simp only [e1, e2, if_true, if_false, Nat.cast_add, Nat.cast_one, Nat.cast_zero]
          constructor <;> omega
        · have e2 : decide (char_value c < 0) = false := decide_eq_false h2
          simp only [e1, e2, if_false, Nat.cast_add, Nat.cast_zero]
          constructor <;> omega

/-! ### Stack discipline of the instrumented search -/

/-- `StatePreserved` is transitive. -/
theorem StatePreserved.comp {s t u : SearchState Pos}
    (h1 : StatePreserved s t) (h2 : StatePreserved t u) : StatePreserved s u := by
  obtain ⟨b1, s1, c1⟩ := h1
  obtain ⟨b2, s2, c2⟩ := h2
  exact ⟨b2.trans b1, s2.trans s1, by omega⟩

/-- `StatePreserved` is reflexive. -/
theorem StatePreserved.refl' (s : SearchState Pos) : StatePreserved s s :=
  ⟨rfl, rfl, Nat.add_comm _ _⟩

/-- Popping a state whose stack extends `s` by one saved board restores `s`,
with one more pop recorded. -/
theorem st_pop_preserved {s t : SearchState Pos}
    (hstack : t.stack = s.board :: s.stack)
    (hcount : t.pushes + s.pops = t.pops + (s.pushes + 1)) :
    StatePreserved s (st_pop t) := by
  have hpop : st_pop t = (⟨s.board, s.stack, t.pushes, t.pops + 1⟩ : SearchState Pos) := by
    rw [st_pop, hstack]
  rw [StatePreserved, hpop]
  refine ⟨rfl, rfl, ?_⟩
  show t.pushes + s.pops = (t.pops + 1) + s.pushes
  omega

/-- Each iteration of the instrumented maximizing loop pushes once, runs a
state-preserving recursive call, and pops once — so the loop preserves the
entry state, on the break path included. -/
theorem ab_max_loop_st_preserves (G : GameModel Pos Move)
    (recurse : SearchState Pos → Score → Score → Score × SearchState Pos)
    (hrec : ∀ t a b, StatePreserved t (recurse t a b).2) :
    ∀ (ms : List Move) (s : SearchState Pos) (alpha beta be : Score)
      (bm : MoveResult Move),
      StatePreserved s (ab_max_loop_st G recurse ms s alpha beta be bm).2 := by
  intro ms
  induction ms with
  | nil => intro s alpha beta be bm; exact StatePreserved.refl' s
  | cons m rest ih =>
      intro s alpha beta be bm
      simp only [ab_max_loop_st]
      have hpop : StatePreserved s (st_pop (recurse (st_push G s m) alpha beta).2) := by
        obtain ⟨hb, hs, hc⟩ := hrec (st_push G s m) alpha beta
        refine st_pop_preserved ?_ ?_
        · rw [hs]; rfl
        · simp only [st_push] at hc ⊢
          omega
      split
      · exact hpop
      · exact StatePreserved.comp hpop (ih _ _ _ _ _)

/-- Dual of `ab_max_loop_st_preserves` for the minimizing loop. -/
theorem ab_min_loop_st_preserves (G : GameModel Pos Move)
    (recurse : SearchState Pos → Score → Score → Score × SearchState Pos)
    (hrec : ∀ t a b, StatePreserved t (recurse t a b).2) :
    ∀ (ms : List Move) (s : SearchState Pos) (alpha beta be : Score)
      (bm : MoveResult Move),
      StatePreserved s (ab_min_loop_st G recurse ms s alpha beta be bm).2 := by
  intro ms
  induction ms with
  | nil => intro s alpha beta be bm; exact StatePreserved.refl' s
  | cons m rest ih =>
      intro s alpha beta be bm
      simp only [ab_min_loop_st]
      have hpop : StatePreserved s (st_pop (recurse (st_push G s m) alpha beta).2) := by
        obtain ⟨hb, hs, hc⟩ := hrec (st_push G s m) alpha beta
        refine st_pop_preserved ?_ ?_
        · rw [hs]; rfl
        · simp only [st_push] at hc ⊢
          omega
      split
      · exact hpop
      · exact StatePreserved.comp hpop (ih _ _ _ _ _)

/-- The instrumented quiescence search preserves the board state: its pushes
and pops balance, and the board and stack it returns are those it received. -/
theorem quiescence_search_st_preserves (G : GameModel Pos Move) :
    ∀ (d : Nat) (s : SearchState Pos) (wt : Bool) (alpha beta : Score),
      StatePreserved s (quiescence_search_st G s wt alpha beta d).2 := by
  intro d
  induction d with
  | zero => intro s wt alpha beta; exact StatePreserved.refl' s
  | succ d ih =>
      intro s wt alpha beta
      simp only [quiescence_search_st]
      by_cases hterm : (G.is_game_over s.board
          || (move_ordering_sort G s.board true).isEmpty) = true
      · rw [if_pos hterm]; exact StatePreserved.refl' s
      · rw [if_neg hterm]
        cases wt with
        | true =>
            rw [if_pos rfl]
            exact ab_max_loop_st_preserves G _ (fun t a b => ih t false a b) _ s _ _ _ _
        | false =>
            rw [if_neg (by simp)]
            exact ab_min_loop_st_preserves G _ (fun t a b => ih t true a b) _ s _ _ _ _

/-- The instrumented alpha-beta search preserves the board state. -/
theorem alphabeta_search_st_preserves (G : GameModel Pos Move)
    (shuffle : List Move → List Move) :
    ∀ (d : Nat) (s : SearchState Pos) (wt : Bool) (alpha beta : Score),
      StatePreserved s (alphabeta_search_st G shuffle s d wt alpha beta).2 := by
  intro d
  induction d with
  | zero =>
      intro s wt alpha beta
      exact quiescence_search_st_preserves G 3 s wt alpha beta
  | succ d ih =>
      intro s wt alpha beta
      simp only [alphabeta_search_st]
      by_cases hov : G.is_game_over s.board = true
      · rw [if_pos hov]
        exact quiescence_search_st_preserves G 3 s wt alpha beta
      · rw [if_neg hov]
        cases wt with
        | true =>
            rw [if_pos rfl]
            exact ab_max_loop_st_preserves G _ (fun t a b => ih t false a b) _ s _ _ _ _
        | false =>
            rw [if_neg (by simp)]
            exact ab_min_loop_st_preserves G _ (fun t a b => ih t true a b) _ s _ _ _ _

end SearchTheorems

/-! ### The claims -/

section Claims

variable {Pos Move : Type}

/-- C1 (amended): for a position that is **not game-over**, with a non-empty
legal-move set (guaranteed by the chess Position-Model property that a
position that is not over has a legal move) and depth ≥ 1, the move component
returned by `alphabeta_search` is a member of the legal-move set — in
particular the first enumerated candidate always replaces the uninitialised
sentinel `''`, so the sentinel is never returned.  The game-over restriction
is forced by `claim_C1_counterexample`. -/
theorem claim_C1_search_move_legal (G : GameModel Pos Move)
    (shuffle : List Move → List Move)
    (hmoves : ∀ q, G.is_game_over q = false → G.legal_moves q ≠ [])
    (hσ : ∀ l, (shuffle l).Perm l)
    (p : Pos) (depth : Nat) (wt : Bool) (alpha beta : Score)
    (hd : 1 ≤ depth) (hover : G.is_game_over p = false) :
    ∃ m ∈ G.legal_moves p,
      (alphabeta_search G shuffle p depth wt alpha beta).1 = MoveResult.move m := by
  cases depth with
  | zero => exact absurd hd (by omega)
  | succ d =>
      simp only [alphabeta_search]
      rw [if_neg (by simp [hover])]
      have hperm : (shuffle (move_ordering_sort G p false)).Perm (G.legal_moves p) :=
        (hσ _).trans (mos_false_perm G p)
      have hne : shuffle (move_ordering_sort G p false) ≠ [] := by
        intro hnil
        rw [hnil] at hperm
        exact hmoves p hover hperm.nil_eq.symm
      cases wt with
      | true =>
          rw [if_pos rfl]
          obtain ⟨m, hm, hmv⟩ := ab_max_loop_fst_move (G.push p)
            (fun q a b => (alphabeta_search G shuffle q d false a b).2)
            (shuffle (move_ordering_sort G p false)) alpha beta MoveResult.sentinel hne
            (fun move _ a b =>
              (alphabeta_search_bounds G shuffle hmoves hσ d (G.push p move) false a b).1)
          exact ⟨m, hperm.mem_iff.mp hm, hmv⟩
      | false =>
          rw [if_neg (by simp)]
          obtain ⟨m, hm, hmv⟩ := ab_min_loop_fst_move (G.push p)
            (fun q a b => (alphabeta_search G shuffle q d true a b).2)
            (shuffle (move_ordering_sort G p false)) alpha beta MoveResult.sentinel hne
            (fun move _ a b =>
              (alphabeta_search_bounds G shuffle hmoves hσ d (G.push p move) true a b).2)
          exact ⟨m, hperm.mem_iff.mp hm, hmv⟩

/-- C1 (counterexample): a game-over position with a non-empty legal-move set
— as chess positions drawn by insufficient material are — makes
`alphabeta_search` at depth 1 return the terminal `None`, which is not a
member of the legal-move set; the claim as stated omits the non-terminal
condition. -/
theorem claim_C1_counterexample :
    (alphabeta_search overG id 0 1 true ⊥ ⊤).1 = MoveResult.noneval
      ∧ overG.legal_moves 0 = [5]
      ∧ ¬ ∃ m ∈ overG.legal_moves 0,
          (alphabeta_search overG id 0 1 true ⊥ ⊤).1 = MoveResult.move m := by
  decide

/-- C1 (witness): the amended theorem applied to the concrete game `demoG`
at its root, depth 2. -/
theorem claim_C1_witness :
    (∀ l : List Nat, (id l).Perm l)
      ∧ (1 : Nat) ≤ 2 ∧ demoG.is_game_over 0 = false
      ∧ ∃ m ∈ demoG.legal_moves 0,
          (alphabeta_search demoG id 0 2 true ⊥ ⊤).1 = MoveResult.move m := by
  have hmoves : ∀ q, demoG.is_game_over q = false → demoG.legal_moves q ≠ [] := by
    intro q hq
    have h2 : ¬ 2 ≤ q := by simpa [demoG] using hq
    match q, h2 with
    | 0, _ => simp [demoG]
    | 1, _ => simp [demoG]
    | n + 2, h => exact absurd (by omega) h
  exact ⟨fun l => List.Perm.refl l, by omega, by decide,
    claim_C1_search_move_legal demoG id hmoves (fun l => List.Perm.refl l)
      0 2 true ⊥ ⊤ (by omega) (by decide)⟩

/-- C2 (confirmed): with the driver's initial window `(-inf, inf)`, the score
returned by `alphabeta_search` equals the full-width (non-pruned) minimax
score of the same depth, same evaluator and same fixed quiescence extension —
for every permutation the shuffle produces; hence any two shuffles give the
same score, and only the reported move may differ. -/
theorem claim_C2_score_full_width (G : GameModel Pos Move)
    (shuffle shuffle' : List Move → List Move)
    (hσ : ∀ l, (shuffle l).Perm l) (hσ' : ∀ l, (shuffle' l).Perm l)
    (p : Pos) (depth : Nat) (wt : Bool) :
    (alphabeta_search G shuffle p depth wt ⊥ ⊤).2 = minimax G p depth wt
      ∧ (alphabeta_search G shuffle p depth wt ⊥ ⊤).2
          = (alphabeta_search G shuffle' p depth wt ⊥ ⊤).2 := by
  refine ⟨alphabeta_search_eq_minimax G shuffle hσ p depth wt, ?_⟩
  rw [alphabeta_search_eq_minimax G shuffle hσ p depth wt,
    alphabeta_search_eq_minimax G shuffle' hσ' p depth wt]

/-- C2 (witness): the equivalence theorem applied to the concrete game
`demoG` at depth 2 with the identity shuffle. -/
theorem claim_C2_witness :
    (∀ l : List Nat, (id l).Perm l)
      ∧ (alphabeta_search demoG id 0 2 true ⊥ ⊤).2 = minimax demoG 0 2 true :=
  ⟨fun l => List.Perm.refl l,
    (claim_C2_score_full_width demoG id id (fun l => List.Perm.refl l)
      (fun l => List.Perm.refl l) 0 2 true).1⟩

/-- C3 (confirmed): `AlphaBetaPruning.search` always raises — the global name
`chess` is unbound (only `PlayResult` is imported from `chess.engine`), so
evaluating `board.turn == chess.WHITE` raises `NameError` before the search
begins and no `PlayResult` is ever returned; moreover `move_ordering_sort`
lacks its `self` parameter, so every bound call passes the instance as
`board` and supplies `only_captures` twice (a `TypeError`), and the two
module-level counters are incremented without ever having been assigned. -/
theorem claim_C3_python_faults (G : GameModel Pos Move)
    (shuffle : List Move → List Move) :
    ("chess" ∉ module_bindings)
      ∧ (∀ p, search_exec G shuffle p = Except.error (PyError.nameError "chess"))
      ∧ move_ordering_sort_call_faults = true
      ∧ ("total_branches_pruned" ∉ module_bindings)
      ∧ ("total_quiescence_positions_evaluated" ∉ module_bindings) := by
  refine ⟨by decide, ?_, by decide, by decide, by decide⟩
  intro p
  simp only [search_exec]
  rw [if_neg (by decide)]

/-- C3 (witness): the fault theorem applied to the concrete game `demoG`. -/
theorem claim_C3_witness :
    search_exec demoG id 0 = Except.error (PyError.nameError "chess")
      ∧ move_ordering_sort_call_faults = true :=
  ⟨(claim_C3_python_faults demoG id).2.1 0, (claim_C3_python_faults demoG id).2.2.1⟩

/-- C4 (confirmed): `evaluate_position` returns the signed material sum of
the spec's value table over the placement encoding while the game is ongoing,
`300` for a win for side A (`"1-0"`), `-300` for a win for side B (`"0-1"`),
and exactly `0` for a draw. -/
theorem claim_C4_evaluate (G : GameModel Pos Move) (p : Pos) :
    evaluate_position G p = spec_evaluate G p := by
  cases houtcome : G.outcome_result p with
  | none =>
      simp only [evaluate_position, spec_evaluate, houtcome]
      rw [char_fold_eq_sum, zero_add,
        show char_value = spec_material_value from funext char_value_eq_spec]
  | some r =>
      simp only [evaluate_position, spec_evaluate, houtcome]

/-- C5 (confirmed, spec-modelled reachability): on an ongoing position
reachable in a single game — modelled, from the spec's "for a single game",
by each side fielding at most 15 non-king units (a side starts with 15 and
pieces are only ever captured) — the evaluation magnitude stays strictly
below the win constant 300 (indeed below 9·15 = 135). -/
theorem claim_C5_eval_below_win (G : GameModel Pos Move) (p : Pos)
    (hongoing : G.outcome_result p = none)
    (hwhite : ((G.board_fen p).toList.countP (fun c => decide (0 < char_value c))) ≤ 15)
    (hblack : ((G.board_fen p).toList.countP (fun c => decide (char_value c < 0))) ≤ 15) :
    |evaluate_position G p| < 300 := by
  obtain ⟨h1, h2⟩ := material_sum_bounds (G.board_fen p).toList
  simp only [evaluate_position, hongoing]
  rw [char_fold_eq_sum, zero_add, abs_lt]
  constructor <;> omega

/-- C5 (witness): the bound applied to the ongoing position `0` of `demoG`,
whose placement encoding is `"P"`. -/
theorem claim_C5_witness :
    demoG.outcome_result 0 = none
      ∧ ((demoG.board_fen 0).toList.countP (fun c => decide (0 < char_value c))) ≤ 15
      ∧ ((demoG.board_fen 0).toList.countP (fun c => decide (char_value c < 0))) ≤ 15
      ∧ |evaluate_position demoG 0| < 300 := by
  refine ⟨by decide, by decide, by decide,
    claim_C5_eval_below_win demoG 0 (by decide) (by decide) (by decide)⟩

/-- C6 (confirmed): with `only_captures` the move orderer returns exactly the
capture-flagged legal moves in enumeration order; without it, the captures
followed by the quiet moves — so the capture list is a prefix (hence a
subsequence, in the same relative order) of the full ordering, and the full
ordering is a permutation of the legal-move list. -/
theorem claim_C6_move_ordering (G : GameModel Pos Move) (p : Pos) :
    move_ordering_sort G p true
        = (G.legal_moves p).filter (fun move => G.is_capture p move)
      ∧ move_ordering_sort G p false
          = (G.legal_moves p).filter (fun move => G.is_capture p move)
            ++ (G.legal_moves p).filter (fun move => ! G.is_capture p move)
      ∧ (move_ordering_sort G p true).Sublist (move_ordering_sort G p false)
      ∧ (move_ordering_sort G p false).Perm (G.legal_moves p) := by
  refine ⟨mos_true G p, mos_false G p, ?_, mos_false_perm G p⟩
  rw [mos_true, mos_false]
  exact List.sublist_append_left _ _

/-- C7 (confirmed): `quiescence_search` returns `(None, evaluate_position)`
exactly when the position is game-over, the capture-only list is empty, or
the extension depth is exhausted; otherwise it returns a member of the
capture-only list as its move. -/
theorem claim_C7_quiescence_characterisation (G : GameModel Pos Move)
    (p : Pos) (wt : Bool) (alpha beta : Score) (d : Nat) :
    (quiescence_search G p wt alpha beta d
        = (MoveResult.noneval, Score.I (evaluate_position G p))
      ↔ (G.is_game_over p = true ∨ move_ordering_sort G p true = [] ∨ d = 0))
    ∧ ((G.is_game_over p = false ∧ move_ordering_sort G p true ≠ [] ∧ d ≠ 0) →
        ∃ m ∈ move_ordering_sort G p true,
          (quiescence_search G p wt alpha beta d).1 = MoveResult.move m) := by
  have hmove : (G.is_game_over p = false ∧ move_ordering_sort G p true ≠ [] ∧ d ≠ 0) →
      ∃ m ∈ move_ordering_sort G p true,
        (quiescence_search G p wt alpha beta d).1 = MoveResult.move m := by
    rintro ⟨hov, hne, hd⟩
    cases d with
    | zero => exact absurd rfl hd
    | succ dd =>
        simp only [quiescence_search]
        rw [if_neg (by simp [hov, hne])]
        cases wt with
        | true =>
            rw [if_pos rfl]
            exact ab_max_loop_fst_move (G.push p)
              (fun q a b => (quiescence_search G q false a b dd).2)
              (move_ordering_sort G p true) alpha beta MoveResult.sentinel hne
              (fun move _ a b => (quiescence_search_bounds G dd (G.push p move) false a b).1)
        | false =>
            rw [if_neg (by simp)]
            exact ab_min_loop_fst_move (G.push p)
              (fun q a b => (quiescence_search G q true a b dd).2)
              (move_ordering_sort G p true) alpha beta MoveResult.sentinel hne
              (fun move _ a b => (quiescence_search_bounds G dd (G.push p move) true a b).2)
  refine ⟨⟨?_, ?_⟩, hmove⟩
  · intro heq
    by_contra hcon
    push_neg at hcon
    obtain ⟨h1, h2, h3⟩ := hcon
    have h1' : G.is_game_over p = false := by simpa using h1
    obtain ⟨m, _, hmv⟩ := hmove ⟨h1', h2, h3⟩
    rw [heq] at hmv
    simp at hmv
  · intro hcond
    cases d with
    | zero => rfl
    | succ dd =>
        have hguard : (G.is_game_over p || (move_ordering_sort G p true).isEmpty) = true := by
          rcases hcond with h | h | h
          · simp [h]
          · simp [h]
          · exact absurd h (Nat.succ_ne_zero dd)
        simp only [quiescence_search]
        rw [if_pos hguard]

/-- C7 (witness): at extension depth 0 the characterisation forces the
terminal pair on the concrete game `demoG`, whose root evaluates to 1. -/
theorem claim_C7_witness :
    quiescence_search demoG 0 true ⊥ ⊤ 0 = (MoveResult.noneval, Score.I 1) :=
  ((claim_C7_quiescence_characterisation demoG 0 true ⊥ ⊤ 0).1.mpr
    (Or.inr (Or.inr rfl))).trans (by decide)

/-- C8 (confirmed): at depth 0 or on a game-over position, `alphabeta_search`
returns `None` paired with the score of `quiescence_search` on the same
position, same side, same window, and the fixed extension depth 3. -/
theorem claim_C8_terminal_delegates (G : GameModel Pos Move)
    (shuffle : List Move → List Move) (p : Pos) (depth : Nat) (wt : Bool)
    (alpha beta : Score) (h : depth = 0 ∨ G.is_game_over p = true) :
    alphabeta_search G shuffle p depth wt alpha beta
      = (MoveResult.noneval, (quiescence_search G p wt alpha beta 3).2) := by
  cases depth with
  | zero => rfl
  | succ d =>
      rcases h with h | h
      · exact absurd h (Nat.succ_ne_zero d)
      · simp only [alphabeta_search]
        rw [if_pos h]

/-- C8 (witness): the delegation at depth 0 on the concrete game `demoG`. -/
theorem claim_C8_witness :
    ((0 : Nat) = 0 ∨ demoG.is_game_over 0 = true)
      ∧ alphabeta_search demoG id 0 0 true ⊥ ⊤
          = (MoveResult.noneval, (quiescence_search demoG 0 true ⊥ ⊤ 3).2) :=
  ⟨Or.inl rfl, claim_C8_terminal_delegates demoG id 0 0 true ⊥ ⊤ (Or.inl rfl)⟩

/-- C9 (amended): invoked on a position with an empty legal-move set, the
top-level `search` does fail and returns no move — but with the unbound-name
`NameError` it raises on **every** invocation, not with a dedicated
`NoLegalMoves` error: no such error exists in the code
(`claim_C9_counterexample`). -/
theorem claim_C9_empty_moves_error (G : GameModel Pos Move)
    (shuffle : List Move → List Move) (p : Pos)
    (_hempty : G.legal_moves p = []) :
    search_exec G shuffle p = Except.error (PyError.nameError "chess") := by
  simp only [search_exec]
  rw [if_neg (by decide)]

/-- C9 (counterexample): on a concrete position with no legal moves, the
error `search` fails with is the `NameError` on `chess`, not a
`NoLegalMoves` error. -/
theorem claim_C9_counterexample :
    emptyG.legal_moves 0 = [] ∧
      search_exec emptyG id 0 ≠ Except.error PyError.noLegalMoves := by
  have he : search_exec emptyG id 0 = Except.error (PyError.nameError "chess") := by
    simp only [search_exec]
    rw [if_neg (by decide)]
  refine ⟨rfl, ?_⟩
  rw [he]
  simp

/-- C9 (witness): the amended theorem applied to the concrete empty-move
game. -/
theorem claim_C9_witness :
    emptyG.legal_moves 0 = [] ∧
      search_exec emptyG id 0 = Except.error (PyError.nameError "chess") :=
  ⟨rfl, claim_C9_empty_moves_error emptyG id 0 rfl⟩

/-- C10 (confirmed): starting a search from a board with an empty undo stack
and zeroed counters, the search returns with pushes = pops, the board it
started from, and the empty stack — every push is matched by exactly one pop,
pruning paths included (the pop precedes the break in both loops). -/
theorem claim_C10_push_pop_balanced (G : GameModel Pos Move)
    (shuffle : List Move → List Move) (p : Pos) (depth : Nat) (wt : Bool)
    (alpha beta : Score) :
    (alphabeta_search_st G shuffle ⟨p, [], 0, 0⟩ depth wt alpha beta).2.pushes
        = (alphabeta_search_st G shuffle ⟨p, [], 0, 0⟩ depth wt alpha beta).2.pops
      ∧ (alphabeta_search_st G shuffle ⟨p, [], 0, 0⟩ depth wt alpha beta).2.board = p
      ∧ (alphabeta_search_st G shuffle ⟨p, [], 0, 0⟩ depth wt alpha beta).2.stack
          = ([] : List Pos) := by
  obtain ⟨hb, hs, hc⟩ :=
    alphabeta_search_st_preserves G shuffle depth ⟨p, [], 0, 0⟩ wt alpha beta
  have hc' : (alphabeta_search_st G shuffle ⟨p, [], 0, 0⟩ depth wt alpha beta).2.pushes + 0
      = (alphabeta_search_st G shuffle ⟨p, [], 0, 0⟩ depth wt alpha beta).2.pops + 0 := hc
  exact ⟨by omega, hb, hs⟩

end Claims

end Strategies
